import Mathlib

/-!
Verification of the INI parser library (Go package `iniparser`,
repository INIParser-EYAD_HUSSEIN), final revision: `pkg/iniparser.go`
(`Parser`, `LoadFromString`, `parseLines`, `Get`, `String`, `SaveToFile`).

Strings are modelled as `List Char` (Go strings are byte/rune sequences;
all inputs of interest are ASCII).  Go maps `map[string]map[string]string`
are modelled as insertion-ordered association lists: Go map iteration
order is unspecified, so any fixed order is a sound determinization for
the order-insensitive properties proved here; lookup and update semantics
coincide with Go's.
-/

namespace IniParser

/-- A Go string, modelled as its list of characters. -/
abbrev GoStr := List Char

/-- Inner map `map[string]string`: key/value pairs in insertion order. -/
abbrev Props := List (GoStr × GoStr)

/-- Outer map `map[string]map[string]string`: section name to properties. -/
abbrev Doc := List (GoStr × Props)

/-- Association-list lookup, mirroring Go map indexing `m[k]` (the
`value, ok` form: `none` when the key is absent). -/
def lookupA {β : Type} : List (GoStr × β) → GoStr → Option β
  | [], _ => none
  | (k, v) :: rest, key => if k = key then some v else lookupA rest key

/-- Association-list store, mirroring Go map assignment `m[k] = v`:
update in place when the key exists, append otherwise. -/
def setA {β : Type} : List (GoStr × β) → GoStr → β → List (GoStr × β)
  | [], key, val => [(key, val)]
  | (k, v) :: rest, key, val =>
      if k = key then (k, val) :: rest else (k, v) :: setA rest key val

/-- Go `unicode.IsSpace` restricted to the ASCII whitespace characters
recognised by `strings.TrimSpace` on ASCII input. -/
def isSpaceChar (c : Char) : Bool :=
  c = ' ' || c = '\t' || c = '\n' || c = '\x0b' || c = '\x0c' || c = '\r'

/-- Go `strings.TrimSpace`: drop whitespace from both ends. -/
def trimSpace (s : GoStr) : GoStr :=
  ((s.dropWhile isSpaceChar).reverse.dropWhile isSpaceChar).reverse

/-- Go `strings.HasPrefix(s, string(c))` for a one-character prefix. -/
def startsWithChar (c : Char) : GoStr → Bool
  | [] => false
  | d :: _ => d = c

/-- Go `strings.HasSuffix(s, string(c))` for a one-character suffix. -/
def endsWithChar (c : Char) (s : GoStr) : Bool :=
  startsWithChar c s.reverse

/-- Go `strings.Contains(s, string(c))` for a one-character substring. -/
def containsChar (c : Char) (s : GoStr) : Bool :=
  s.any (· = c)

/-- Go `strings.Split(s, string(sep))` for a one-character separator:
split at every occurrence of `sep`; always returns at least one part. -/
def splitOnChar (sep : Char) : GoStr → List GoStr
  | [] => [[]]
  | c :: rest =>
      match splitOnChar sep rest with
      | [] => [[]]
      | h :: t => if c = sep then [] :: h :: t else (c :: h) :: t

/-- The sentinel error values of `pkg/iniparser.go` that `parseLines`,
`LoadFromString` and `SaveToFile` can return (I/O errors excluded). -/
inductive PErr where
  | emptyString
  | sectionIsEmpty
  | keyIsEmpty
  | valueIsEmpty
  | commentOnNewLine
  deriving Repr, DecidableEq

/-- Outcome of running Go code that either returns an `error` value or
crashes with a runtime panic (assignment into a nil inner map). -/
inductive PFail where
  | goError (e : PErr)
  | nilMapPanic
  deriving Repr, DecidableEq

/-- The mutable state of the `parseLines` loop in `pkg/iniparser.go`:
the `parsedData` map under construction and `currentSection`
(Go zero value `""`, i.e. `[]`). -/
structure PState where
  parsedData : Doc
  currentSection : GoStr
  deriving Repr, DecidableEq

/-- One iteration of the `for _, line := range lines` loop of
`parseLines` (pkg/iniparser.go lines 171-204), faithful to the source:
trim the line; skip blanks; a `[`…`]` line is a section header (empty
trimmed interior is `ErrSectionIsEmpty`, re-declaration keeps the
existing section); a line containing `=` that starts with `#` or `;` is
`ErrCommentOnNewLine`; otherwise it is split on every `=`, the first two
parts are trimmed into key and value (`ErrKeyIsEmpty` / `ErrValueIsEmpty`
when empty) and stored via `parsedData[currentSection][key] = value`,
which panics on the nil inner map when no section is open; any other
line is skipped. -/
def parseLine (st : PState) (rawLine : GoStr) : Except PFail PState :=
  let line := trimSpace rawLine
  if line = [] then .ok st
  else if startsWithChar '[' line && endsWithChar ']' line then
    let sectionName := trimSpace ((line.drop 1).dropLast)
    if sectionName = [] then .error (.goError .sectionIsEmpty)
    else
      match lookupA st.parsedData sectionName with
      | some _ => .ok ⟨st.parsedData, sectionName⟩
      | none => .ok ⟨setA st.parsedData sectionName [], sectionName⟩
  else if containsChar '=' line then
    if startsWithChar '#' line || startsWithChar ';' line then
      .error (.goError .commentOnNewLine)
    else
      let keyValuePair := splitOnChar '=' line
      let key := trimSpace (keyValuePair.getD 0 [])
      let value := trimSpace (keyValuePair.getD 1 [])
      if key = [] then .error (.goError .keyIsEmpty)
      else if value = [] then .error (.goError .valueIsEmpty)
      else
        match lookupA st.parsedData st.currentSection with
        | some props =>
            .ok ⟨setA st.parsedData st.currentSection (setA props key value),
                 st.currentSection⟩
        | none => .error .nilMapPanic
  else .ok st

/-- The `parseLines` loop over the whole line list, threading the state;
the first error aborts the pass. -/
def parseLinesFrom : List GoStr → PState → Except PFail PState
  | [], st => .ok st
  | l :: rest, st =>
      match parseLine st l with
      | .error e => .error e
      | .ok st' => parseLinesFrom rest st'

/-- `parseLines(lines)` of pkg/iniparser.go: run the loop from the
initial state (`parsedData` empty, `currentSection` the zero value `""`)
and return the built map. -/
def parseLines (lines : List GoStr) : Except PFail Doc :=
  (parseLinesFrom lines ⟨[], []⟩).map (·.parsedData)

/-- The pure core of `LoadFromString`: reject the empty string with
`ErrEmptyString`, otherwise split on `"\n"` and parse the lines. -/
def parseGo (data : GoStr) : Except PFail Doc :=
  if data = [] then .error (.goError .emptyString)
  else parseLines (splitOnChar '\n' data)

/-- The `Parser` struct of pkg/iniparser.go; the zero value has a nil
`parsedData` map, modelled by the empty association list. -/
structure Parser where
  parsedData : Doc
  deriving Repr, DecidableEq

/-- `LoadFromString` (pkg/iniparser.go lines 71-86): returns the parser
after the call together with the returned error.  On any failure the
receiver is left unchanged; on success `parsedData` is replaced. -/
def loadFromString (p : Parser) (data : GoStr) : Parser × Option PFail :=
  match parseGo data with
  | .error e => (p, some e)
  | .ok d => (⟨d⟩, none)

/-- The accessor errors of `Get`. -/
inductive GetErr where
  | sectionNotFound
  | keyNotFound
  deriving Repr, DecidableEq

/-- `Get` (pkg/iniparser.go lines 89-102): two map lookups; wrapped
sentinel errors are identified by their `errors.Is` kind. -/
def get (p : Parser) (sectionName key : GoStr) : GoStr × Option GetErr :=
  match lookupA p.parsedData sectionName with
  | none => ([], some .sectionNotFound)
  | some property =>
      match lookupA property key with
      | none => ([], some .keyNotFound)
      | some val => (val, none)

/-- One `key=value\n` line emitted by the `String` method. -/
def kvChunk (k v : GoStr) : GoStr := k ++ '=' :: v ++ ['\n']

/-- The text emitted by `String` for one section: `[name]\n` followed by
its key/value lines. -/
def sectionChunk (s : GoStr) (props : Props) : GoStr :=
  '[' :: s ++ ']' :: '\n' :: (props.map (fun kv => kvChunk kv.1 kv.2)).flatten

/-- Go `strings.TrimSuffix(str, "\n")`: drop one trailing newline. -/
def trimSuffixNewline (s : GoStr) : GoStr :=
  if s.getLast? = some '\n' then s.dropLast else s

/-- The `String` method (pkg/iniparser.go lines 142-155): concatenate a
block per section, then trim one trailing newline. -/
def toStringGo (d : Doc) : GoStr :=
  trimSuffixNewline ((d.map (fun sp => sectionChunk sp.1 sp.2)).flatten)

/-- The non-I/O behaviour of `SaveToFile` (pkg/iniparser.go lines
158-165): the content handed to `os.WriteFile` is `p.String()`; the only
possible error is the external I/O failure `ErrWritingToFile`, modelled
out of scope, so the pure part always succeeds with the serialized
text.  There is no emptiness check in this revision. -/
def saveToFile (p : Parser) : Except PErr GoStr :=
  .ok (toStringGo p.parsedData)

/-! ### Basic lemmas about the string helpers -/

theorem and_eq_false_of_not_and {x y : Bool} (h : ¬(x = true ∧ y = true)) :
    (x && y) = false := by
  cases hx : x with
  | false => simp
  | true =>
      cases hy : y with
      | false => simp
      | true => exact absurd ⟨hx, hy⟩ h

theorem splitOnChar_ne_nil (sep : Char) (s : GoStr) : splitOnChar sep s ≠ [] := by
  cases s with
  | nil => simp [splitOnChar]
  | cons c rest =>
      simp only [splitOnChar]
      cases splitOnChar sep rest with
      | nil => simp
      | cons hd t => by_cases hc : c = sep <;> simp [hc]

theorem splitOnChar_no_sep (sep : Char) (s : GoStr)
    (h : containsChar sep s = false) : splitOnChar sep s = [s] := by
  induction s with
  | nil => rfl
  | cons c rest ih =>
      simp only [containsChar, List.any_cons, Bool.or_eq_false_iff] at h
      obtain ⟨hc, hrest⟩ := h
      have hrest' : splitOnChar sep rest = [rest] := ih hrest
      simp only [splitOnChar, hrest']
      have : ¬(c = sep) := by
        intro hceq; rw [hceq] at hc; simp at hc
      simp [this]

theorem splitOnChar_append_sep (sep : Char) (a b : GoStr)
    (h : containsChar sep a = false) :
    splitOnChar sep (a ++ sep :: b) = a :: splitOnChar sep b := by
  induction a with
  | nil =>
      simp only [List.nil_append, splitOnChar]
      cases hs : splitOnChar sep b with
      | nil => exact absurd hs (splitOnChar_ne_nil sep b)
      | cons h t => simp
  | cons c rest ih =>
      simp only [containsChar, List.any_cons, Bool.or_eq_false_iff] at h
      obtain ⟨hc, hrest⟩ := h
      have hcs : ¬(c = sep) := by
        intro hceq; rw [hceq] at hc; simp at hc
      have ih' := ih hrest
      rw [List.cons_append]
      simp only [splitOnChar, ih']
      simp [hcs]

theorem containsChar_append_sep (sep : Char) (a b : GoStr) :
    containsChar sep (a ++ sep :: b) = true := by
  simp [containsChar]

theorem parseLinesFrom_append (xs ys : List GoStr) (st : PState) :
    parseLinesFrom (xs ++ ys) st =
      match parseLinesFrom xs st with
      | .ok st' => parseLinesFrom ys st'
      | .error e => .error e := by
  induction xs generalizing st with
  | nil => simp [parseLinesFrom]
  | cons l rest ih =>
      simp only [List.cons_append, parseLinesFrom]
      cases parseLine st l with
      | error e => rfl
      | ok st' => exact ih st'

/-! ### Association-list lemmas (Go map semantics) -/

theorem lookupA_setA_eq {β : Type} (A : List (GoStr × β)) (k : GoStr) (v : β) :
    lookupA (setA A k v) k = some v := by
  induction A with
  | nil => simp [setA, lookupA]
  | cons p rest ih =>
      obtain ⟨k0, v0⟩ := p
      by_cases h : k0 = k
      · simp [setA, lookupA, h]
      · simp [setA, lookupA, h, ih]

theorem lookupA_setA_ne {β : Type} (A : List (GoStr × β)) (k k' : GoStr) (v : β)
    (h : k' ≠ k) : lookupA (setA A k' v) k = lookupA A k := by
  have hsym : ¬(k = k') := fun hh => h hh.symm
  induction A with
  | nil => simp [setA, lookupA, h, hsym]
  | cons p rest ih =>
      obtain ⟨k0, v0⟩ := p
      by_cases h0 : k0 = k'
      · subst h0
        simp [setA, lookupA, h, hsym]
      · by_cases h1 : k0 = k
        · simp [setA, lookupA, h0, h1, hsym]
        · simp [setA, lookupA, h0, h1, ih]

/-! ### Trimming lemmas -/

theorem trimSpace_eq_self_of (l : GoStr)
    (h1 : l.dropWhile isSpaceChar = l)
    (h2 : l.reverse.dropWhile isSpaceChar = l.reverse) : trimSpace l = l := by
  unfold trimSpace
  rw [h1, h2, List.reverse_reverse]

theorem trimSpace_sandwich (c d : Char) (m : GoStr)
    (hc : isSpaceChar c = false) (hd : isSpaceChar d = false) :
    trimSpace (c :: (m ++ [d])) = c :: (m ++ [d]) := by
  apply trimSpace_eq_self_of
  · rw [List.dropWhile_cons_of_neg (by simp [hc])]
  · rw [show (c :: (m ++ [d])).reverse = d :: (m.reverse ++ [c]) by simp]
    rw [List.dropWhile_cons_of_neg (by simp [hd])]

theorem dropWhile_head_false (p : Char → Bool) (l : GoStr) (c : Char)
    (h : (List.dropWhile p l).head? = some c) : p c = false := by
  have hh := List.head?_dropWhile_not p l
  rw [h] at hh
  simpa using hh

theorem dropWhile_eq_self_of_head (p : Char → Bool) (l : GoStr)
    (h : ∀ c, l.head? = some c → p c = false) : List.dropWhile p l = l := by
  cases l with
  | nil => rfl
  | cons x xs => exact List.dropWhile_cons_of_neg (by simp [h x rfl])

theorem dropWhile_of_trim_eq (l : GoStr) (h : trimSpace l = l) :
    List.dropWhile isSpaceChar l = l ∧
    List.dropWhile isSpaceChar l.reverse = l.reverse := by
  have hlen1 : (trimSpace l).length ≤
      (List.dropWhile isSpaceChar l).length := by
    unfold trimSpace
    rw [List.length_reverse]
    calc (List.dropWhile isSpaceChar
            (List.dropWhile isSpaceChar l).reverse).length
        ≤ (List.dropWhile isSpaceChar l).reverse.length :=
          (List.dropWhile_suffix _).sublist.length_le
      _ = (List.dropWhile isSpaceChar l).length := List.length_reverse _
  have hlen2 : (List.dropWhile isSpaceChar l).length ≤ l.length :=
    (List.dropWhile_suffix _).sublist.length_le
  rw [h] at hlen1
  have hlen : (List.dropWhile isSpaceChar l).length = l.length :=
    le_antisymm hlen2 hlen1
  have hdw : List.dropWhile isSpaceChar l = l :=
    (List.dropWhile_suffix _).eq_of_length hlen
  refine ⟨hdw, ?_⟩
  have h' : ((List.dropWhile isSpaceChar l).reverse.dropWhile
      isSpaceChar).reverse = l := h
  rw [hdw] at h'
  have := congrArg List.reverse h'
  rwa [List.reverse_reverse] at this

theorem head_not_space_of_trim (l : GoStr) (h : trimSpace l = l) (c : Char)
    (hc : l.head? = some c) : isSpaceChar c = false := by
  refine dropWhile_head_false isSpaceChar l c ?_
  rw [(dropWhile_of_trim_eq l h).1]
  exact hc

theorem last_not_space_of_trim (l : GoStr) (h : trimSpace l = l) (c : Char)
    (hc : l.getLast? = some c) : isSpaceChar c = false := by
  refine dropWhile_head_false isSpaceChar l.reverse c ?_
  rw [(dropWhile_of_trim_eq l h).2, List.head?_reverse]
  exact hc

theorem trimSpace_eq_self_of_ends (l : GoStr)
    (hh : ∀ c, l.head? = some c → isSpaceChar c = false)
    (hl : ∀ c, l.getLast? = some c → isSpaceChar c = false) :
    trimSpace l = l := by
  apply trimSpace_eq_self_of
  · exact dropWhile_eq_self_of_head _ _ hh
  · exact dropWhile_eq_self_of_head _ _
      (fun c hc => hl c (by rwa [List.head?_reverse] at hc))

theorem trim_head_not_space (l : GoStr) (c : Char)
    (hc : (trimSpace l).head? = some c) : isSpaceChar c = false := by
  unfold trimSpace at hc
  rw [List.head?_reverse] at hc
  rcases hw : List.dropWhile isSpaceChar
      (List.dropWhile isSpaceChar l).reverse with _ | ⟨y, ys⟩
  · rw [hw] at hc
    simp at hc
  · obtain ⟨t, ht⟩ := List.dropWhile_suffix
      (l := (List.dropWhile isSpaceChar l).reverse) isSpaceChar
    rw [hw] at hc ht
    have hlast : (List.dropWhile isSpaceChar l).reverse.getLast? = some c := by
      rw [← ht, List.getLast?_append_of_ne_nil t (by simp), hc]
    rw [List.getLast?_reverse] at hlast
    exact dropWhile_head_false isSpaceChar l c hlast

theorem trim_last_not_space (l : GoStr) (c : Char)
    (hc : (trimSpace l).getLast? = some c) : isSpaceChar c = false := by
  unfold trimSpace at hc
  rw [List.getLast?_reverse] at hc
  exact dropWhile_head_false isSpaceChar _ c hc

theorem trimSpace_idem (l : GoStr) : trimSpace (trimSpace l) = trimSpace l :=
  trimSpace_eq_self_of_ends (trimSpace l) (trim_head_not_space l)
    (trim_last_not_space l)

theorem mem_of_mem_trimSpace {a : Char} {l : GoStr} (h : a ∈ trimSpace l) :
    a ∈ l := by
  unfold trimSpace at h
  rw [List.mem_reverse] at h
  have h1 := (List.dropWhile_suffix isSpaceChar).sublist.mem h
  rw [List.mem_reverse] at h1
  exact (List.dropWhile_suffix isSpaceChar).sublist.mem h1

theorem containsChar_eq_true_iff (c : Char) (l : GoStr) :
    containsChar c l = true ↔ c ∈ l := by
  unfold containsChar
  rw [List.any_eq_true]
  constructor
  · rintro ⟨x, hx, he⟩
    simp only [decide_eq_true_eq] at he
    exact he ▸ hx
  · intro h
    exact ⟨c, h, by simp⟩

theorem containsChar_eq_false_iff (c : Char) (l : GoStr) :
    containsChar c l = false ↔ c ∉ l := by
  rw [← Bool.not_eq_true, not_iff_not]
  exact containsChar_eq_true_iff c l

theorem containsChar_false_mono {c : Char} {l₁ l₂ : GoStr}
    (hsub : ∀ a ∈ l₁, a ∈ l₂) (h : containsChar c l₂ = false) :
    containsChar c l₁ = false := by
  rw [containsChar_eq_false_iff] at h ⊢
  exact fun hc => h (hsub c hc)

theorem containsChar_trimSpace_false {c : Char} {l : GoStr}
    (h : containsChar c l = false) : containsChar c (trimSpace l) = false :=
  containsChar_false_mono (fun _ ha => mem_of_mem_trimSpace ha) h

theorem containsChar_append (c : Char) (a b : GoStr) :
    containsChar c (a ++ b) = (containsChar c a || containsChar c b) := by
  simp [containsChar]

/-- Every part produced by `splitOnChar` is free of the separator. -/
theorem splitOnChar_parts_no_sep (sep : Char) (s : GoStr) :
    ∀ p ∈ splitOnChar sep s, containsChar sep p = false := by
  induction s with
  | nil =>
      intro p hp
      simp only [splitOnChar, List.mem_singleton] at hp
      simp [hp, containsChar]
  | cons c rest ih =>
      intro p hp
      rcases hs : splitOnChar sep rest with _ | ⟨h, t⟩
      · exact absurd hs (splitOnChar_ne_nil sep rest)
      · rw [show splitOnChar sep (c :: rest) =
            if c = sep then [] :: h :: t else (c :: h) :: t by
              simp only [splitOnChar, hs]] at hp
        by_cases hc : c = sep
        · rw [if_pos hc] at hp
          rcases List.mem_cons.mp hp with hp | hp
          · simp [hp, containsChar]
          · exact ih p (hs ▸ hp)
        · rw [if_neg hc] at hp
          rcases List.mem_cons.mp hp with hp | hp
          · subst hp
            have hh : containsChar sep h = false := ih h (by rw [hs]; simp)
            simp [containsChar, hc] at hh ⊢
            exact hh
          · exact ih p (by rw [hs]; exact List.mem_cons_of_mem h hp)

/-- Every character of every part of `splitOnChar` comes from the input. -/
theorem splitOnChar_parts_mem (sep : Char) (s : GoStr) :
    ∀ p ∈ splitOnChar sep s, ∀ a ∈ p, a ∈ s := by
  induction s with
  | nil =>
      intro p hp a ha
      simp only [splitOnChar, List.mem_singleton] at hp
      subst hp
      simp at ha
  | cons c rest ih =>
      intro p hp a ha
      rcases hs : splitOnChar sep rest with _ | ⟨h, t⟩
      · exact absurd hs (splitOnChar_ne_nil sep rest)
      · rw [show splitOnChar sep (c :: rest) =
            if c = sep then [] :: h :: t else (c :: h) :: t by
              simp only [splitOnChar, hs]] at hp
        by_cases hc : c = sep
        · rw [if_pos hc] at hp
          rcases List.mem_cons.mp hp with hp | hp
          · subst hp; simp at ha
          · exact List.mem_cons_of_mem c (ih p (hs ▸ hp) a ha)
        · rw [if_neg hc] at hp
          rcases List.mem_cons.mp hp with hp | hp
          · subst hp
            rcases List.mem_cons.mp ha with ha | ha
            · exact ha ▸ List.mem_cons_self c rest
            · exact List.mem_cons_of_mem c
                (ih h (by rw [hs]; simp) a ha)
          · exact List.mem_cons_of_mem c
              (ih p (by rw [hs]; exact List.mem_cons_of_mem h hp) a ha)

/-- A line containing the separator splits into at least two parts. -/
theorem splitOnChar_two_parts (sep : Char) (s : GoStr)
    (h : containsChar sep s = true) :
    ∃ p0 p1 rest, splitOnChar sep s = p0 :: p1 :: rest := by
  induction s with
  | nil => simp [containsChar] at h
  | cons c cs ih =>
      by_cases hc : c = sep
      · rcases hs : splitOnChar sep cs with _ | ⟨h0, t0⟩
        · exact absurd hs (splitOnChar_ne_nil sep cs)
        · exact ⟨[], h0, t0, by simp [splitOnChar, hs, hc]⟩
      · have hcs : containsChar sep cs = true := by
          simp only [containsChar, List.any_cons] at h
          rcases Bool.or_eq_true_iff.mp h with h' | h'
          · exact absurd (by simpa using h') hc
          · exact h'
        obtain ⟨p0, p1, rest, hp⟩ := ih hcs
        exact ⟨c :: p0, p1, rest, by simp [splitOnChar, hp, hc]⟩

theorem splitOnChar_head_cons (sep x : Char) (xs : GoStr) (hx : ¬(x = sep)) :
    ∃ h t, splitOnChar sep xs = h :: t ∧
      splitOnChar sep (x :: xs) = (x :: h) :: t := by
  rcases hs : splitOnChar sep xs with _ | ⟨h, t⟩
  · exact absurd hs (splitOnChar_ne_nil sep xs)
  · exact ⟨h, t, rfl, by simp [splitOnChar, hs, hx]⟩

theorem dropWhile_append_singleton (p : Char → Bool) (x : Char)
    (hx : p x = false) (ys : GoStr) :
    ∃ z, List.dropWhile p (ys ++ [x]) = z ++ [x] := by
  have hx' : ¬(p x = true) := by simp [hx]
  induction ys with
  | nil => exact ⟨[], by rw [List.nil_append, List.dropWhile_cons_of_neg hx']⟩
  | cons y ys ih =>
      by_cases hy : p y = true
      · obtain ⟨z, hz⟩ := ih
        exact ⟨z, by rw [List.cons_append, List.dropWhile_cons_of_pos hy, hz]⟩
      · exact ⟨y :: ys, by rw [List.cons_append, List.dropWhile_cons_of_neg hy]⟩

/-- Trimming keeps a non-space head character in place. -/
theorem trim_cons_of_not_space (x : Char) (t : GoStr)
    (hx : isSpaceChar x = false) : ∃ t', trimSpace (x :: t) = x :: t' := by
  unfold trimSpace
  rw [List.dropWhile_cons_of_neg (by simp [hx])]
  rw [show (x :: t).reverse = t.reverse ++ [x] by simp]
  obtain ⟨z, hz⟩ := dropWhile_append_singleton isSpaceChar x hx t.reverse
  rw [hz]
  exact ⟨z.reverse, by simp⟩

/-! ### Further association-list lemmas -/

theorem setA_of_lookup_none {β : Type} (A : List (GoStr × β)) (k : GoStr) (v : β)
    (h : lookupA A k = none) : setA A k v = A ++ [(k, v)] := by
  induction A with
  | nil => rfl
  | cons p rest ih =>
      obtain ⟨k0, v0⟩ := p
      simp only [lookupA] at h
      by_cases h0 : k0 = k
      · rw [if_pos h0] at h
        exact Option.noConfusion h
      · rw [if_neg h0] at h
        simp [setA, h0, ih h]

theorem lookup_none_of_not_mem {β : Type} (A : List (GoStr × β)) (k : GoStr)
    (h : k ∉ A.map Prod.fst) : lookupA A k = none := by
  induction A with
  | nil => rfl
  | cons p rest ih =>
      obtain ⟨k0, v0⟩ := p
      simp only [List.map_cons, List.mem_cons] at h
      push_neg at h
      simp only [lookupA]
      rw [if_neg (fun h0 => h.1 h0.symm)]
      exact ih (h.2)

theorem not_mem_of_lookup_none {β : Type} (A : List (GoStr × β)) (k : GoStr)
    (h : lookupA A k = none) : k ∉ A.map Prod.fst := by
  induction A with
  | nil => simp
  | cons p rest ih =>
      obtain ⟨k0, v0⟩ := p
      simp only [lookupA] at h
      by_cases h0 : k0 = k
      · rw [if_pos h0] at h
        exact Option.noConfusion h
      · rw [if_neg h0] at h
        simp only [List.map_cons, List.mem_cons]
        push_neg
        exact ⟨fun he => h0 he.symm, ih h⟩

theorem setA_map_fst_of_some {β : Type} (A : List (GoStr × β)) (k : GoStr)
    (v w : β) (h : lookupA A k = some w) :
    (setA A k v).map Prod.fst = A.map Prod.fst := by
  induction A with
  | nil => exact Option.noConfusion h
  | cons p rest ih =>
      obtain ⟨k0, v0⟩ := p
      simp only [lookupA] at h
      by_cases h0 : k0 = k
      · simp [setA, h0]
      · rw [if_neg h0] at h
        simp [setA, h0, ih h]

theorem mem_setA {β : Type} (A : List (GoStr × β)) (k : GoStr) (v : β)
    (sp : GoStr × β) (h : sp ∈ setA A k v) : sp ∈ A ∨ sp = (k, v) := by
  induction A with
  | nil =>
      simp only [setA, List.mem_singleton] at h
      exact Or.inr h
  | cons p rest ih =>
      obtain ⟨k0, v0⟩ := p
      simp only [setA] at h
      by_cases h0 : k0 = k
      · rw [if_pos h0] at h
        rcases List.mem_cons.mp h with h | h
        · subst h0
          exact Or.inr (by rw [h])
        · exact Or.inl (List.mem_cons_of_mem _ h)
      · rw [if_neg h0] at h
        rcases List.mem_cons.mp h with h | h
        · exact Or.inl (h ▸ List.mem_cons_self _ _)
        · rcases ih h with h | h
          · exact Or.inl (List.mem_cons_of_mem _ h)
          · exact Or.inr h

theorem mem_of_lookup_some {β : Type} (A : List (GoStr × β)) (k : GoStr) (w : β)
    (h : lookupA A k = some w) : (k, w) ∈ A := by
  induction A with
  | nil => exact Option.noConfusion h
  | cons p rest ih =>
      obtain ⟨k0, v0⟩ := p
      simp only [lookupA] at h
      by_cases h0 : k0 = k
      · rw [if_pos h0] at h
        cases h
        subst h0
        exact List.mem_cons_self _ _
      · rw [if_neg h0] at h
        exact List.mem_cons_of_mem _ (ih h)

theorem lookup_append_singleton {β : Type} (A : List (GoStr × β)) (s : GoStr)
    (P : β) (h : s ∉ A.map Prod.fst) : lookupA (A ++ [(s, P)]) s = some P := by
  induction A with
  | nil => simp [lookupA]
  | cons p rest ih =>
      obtain ⟨k0, v0⟩ := p
      simp only [List.map_cons, List.mem_cons] at h
      push_neg at h
      simp only [List.cons_append, lookupA]
      rw [if_neg (fun h0 => h.1 h0.symm)]
      exact ih h.2

theorem setA_append_singleton {β : Type} (A : List (GoStr × β)) (s : GoStr)
    (P Q : β) (h : s ∉ A.map Prod.fst) :
    setA (A ++ [(s, P)]) s Q = A ++ [(s, Q)] := by
  induction A with
  | nil => simp [setA]
  | cons p rest ih =>
      obtain ⟨k0, v0⟩ := p
      simp only [List.map_cons, List.mem_cons] at h
      push_neg at h
      simp only [List.cons_append, setA]
      rw [if_neg (fun h0 => h.1 h0.symm)]
      exact congrArg (fun x => (k0, v0) :: x) (ih h.2)

/-! ### Well-formedness invariant of parsed documents -/

/-- Shape of every key/value pair stored by a successful parse: both are
trimmed, non-empty, free of `=` and of newlines; the key cannot start
with a comment marker. -/
def wfKV (kv : GoStr × GoStr) : Prop :=
  trimSpace kv.1 = kv.1 ∧ kv.1 ≠ [] ∧ containsChar '=' kv.1 = false ∧
  containsChar '\n' kv.1 = false ∧ startsWithChar '#' kv.1 = false ∧
  startsWithChar ';' kv.1 = false ∧
  trimSpace kv.2 = kv.2 ∧ kv.2 ≠ [] ∧ containsChar '=' kv.2 = false ∧
  containsChar '\n' kv.2 = false

/-- Shape of every stored section: trimmed non-empty newline-free name,
distinct keys, well-formed pairs. -/
def wfSection (sp : GoStr × Props) : Prop :=
  trimSpace sp.1 = sp.1 ∧ sp.1 ≠ [] ∧ containsChar '\n' sp.1 = false ∧
  (sp.2.map Prod.fst).Nodup ∧ ∀ kv ∈ sp.2, wfKV kv

/-- Shape of every document built by `parseLines`: distinct section
names, well-formed sections. -/
def wfDoc (d : Doc) : Prop :=
  (d.map Prod.fst).Nodup ∧ ∀ sp ∈ d, wfSection sp

theorem split_head_key_starts (s : GoStr) (c : Char)
    (hhead : ∀ x, s.head? = some x → isSpaceChar x = false)
    (hs : startsWithChar c s = false)
    (hkne : trimSpace ((splitOnChar '=' s).getD 0 []) ≠ []) :
    startsWithChar c (trimSpace ((splitOnChar '=' s).getD 0 [])) = false := by
  cases s with
  | nil => exact absurd rfl hkne
  | cons x xs =>
      by_cases hx : x = '='
      · subst hx
        rcases hsx : splitOnChar '=' xs with _ | ⟨h0, t0⟩
        · exact absurd hsx (splitOnChar_ne_nil '=' xs)
        · rw [show splitOnChar '=' ('=' :: xs) = [] :: h0 :: t0 by
            simp [splitOnChar, hsx]] at hkne
          exact absurd rfl hkne
      · obtain ⟨h0, t0, _, hs1⟩ := splitOnChar_head_cons '=' x xs hx
        rw [hs1]
        simp only [List.getD_cons_zero]
        have hxs : isSpaceChar x = false := hhead x rfl
        obtain ⟨t', ht'⟩ := trim_cons_of_not_space x h0 hxs
        rw [ht']
        simpa [startsWithChar] using hs

theorem part_contains_false (l : GoStr) (c : Char) (p : GoStr)
    (hp : p ∈ splitOnChar '=' (trimSpace l)) (hc : containsChar c l = false) :
    containsChar c (trimSpace p) = false := by
  apply containsChar_trimSpace_false
  exact containsChar_false_mono
    (fun a ha =>
      mem_of_mem_trimSpace (splitOnChar_parts_mem '=' (trimSpace l) p hp a ha))
    hc

/-- The key/value pair extracted from a successfully parsed key-value
line is well-formed. -/
theorem parsed_kv_wf (l : GoStr)
    (hl : containsChar '\n' l = false)
    (hcomment : ¬(startsWithChar '#' (trimSpace l) ||
                  startsWithChar ';' (trimSpace l)) = true)
    (hcontains : containsChar '=' (trimSpace l) = true)
    (hk : trimSpace ((splitOnChar '=' (trimSpace l)).getD 0 []) ≠ [])
    (hv : trimSpace ((splitOnChar '=' (trimSpace l)).getD 1 []) ≠ []) :
    wfKV (trimSpace ((splitOnChar '=' (trimSpace l)).getD 0 []),
          trimSpace ((splitOnChar '=' (trimSpace l)).getD 1 [])) := by
  obtain ⟨p0, p1, rest, hsplit⟩ := splitOnChar_two_parts '=' (trimSpace l) hcontains
  have hp0 : p0 ∈ splitOnChar '=' (trimSpace l) := by rw [hsplit]; simp
  have hp1 : p1 ∈ splitOnChar '=' (trimSpace l) := by rw [hsplit]; simp
  have hcb : startsWithChar '#' (trimSpace l) = false ∧
      startsWithChar ';' (trimSpace l) = false := by
    rcases h1 : startsWithChar '#' (trimSpace l) with _ | _ <;>
      rcases h2 : startsWithChar ';' (trimSpace l) with _ | _ <;>
        simp_all
  refine ⟨trimSpace_idem _, hk, ?_, ?_, ?_, ?_, trimSpace_idem _, hv, ?_, ?_⟩
  · rw [hsplit]
    exact containsChar_trimSpace_false (splitOnChar_parts_no_sep _ _ p0 hp0)
  · rw [hsplit]
    exact part_contains_false l '\n' p0 hp0 hl
  · exact split_head_key_starts (trimSpace l) '#' (trim_head_not_space l)
      hcb.1 hk
  · exact split_head_key_starts (trimSpace l) ';' (trim_head_not_space l)
      hcb.2 hk
  · rw [hsplit]
    exact containsChar_trimSpace_false (splitOnChar_parts_no_sep _ _ p1 hp1)
  · rw [hsplit]
    exact part_contains_false l '\n' p1 hp1 hl

/-! ### Single-step preservation (no key or section is ever dropped) -/

theorem parseLine_preserves_entry (st : PState) (l : GoStr) (st' : PState)
    (h : parseLine st l = .ok st') (s k : GoStr) (P : Props) (v : GoStr)
    (hs : lookupA st.parsedData s = some P) (hk : lookupA P k = some v) :
    ∃ P' v', lookupA st'.parsedData s = some P' ∧ lookupA P' k = some v' := by
  unfold parseLine at h
  by_cases hblank : trimSpace l = []
  · simp only [hblank, if_pos rfl] at h
    cases h
    exact ⟨P, v, hs, hk⟩
  · rw [if_neg hblank] at h
    by_cases hheader : (startsWithChar '[' (trimSpace l) &&
        endsWithChar ']' (trimSpace l)) = true
    · rw [if_pos hheader] at h
      set name := trimSpace (((trimSpace l).drop 1).dropLast) with hname
      by_cases hinterior : name = []
      · simp only [if_pos hinterior] at h
        exact Except.noConfusion h
      · rw [if_neg hinterior] at h
        cases hlk : lookupA st.parsedData name with
        | some q =>
            rw [hlk] at h
            cases h
            exact ⟨P, v, hs, hk⟩
        | none =>
            rw [hlk] at h
            cases h
            have hne : name ≠ s := by
              intro heq
              rw [heq, hs] at hlk
              exact Option.noConfusion hlk
            refine ⟨P, v, ?_, hk⟩
            simpa [lookupA_setA_ne _ _ _ _ hne] using hs
    · rw [if_neg (by simp [hheader])] at h
      by_cases hcontains : containsChar '=' (trimSpace l) = true
      · rw [if_pos hcontains] at h
        by_cases hcomment : (startsWithChar '#' (trimSpace l) ||
            startsWithChar ';' (trimSpace l)) = true
        · simp only [if_pos hcomment] at h
          exact Except.noConfusion h
        · rw [if_neg (by simp [hcomment])] at h
          set key := trimSpace ((splitOnChar '=' (trimSpace l)).getD 0 []) with hkey
          set value := trimSpace ((splitOnChar '=' (trimSpace l)).getD 1 []) with hvalue
          by_cases hkempty : key = []
          · simp only [if_pos hkempty] at h
            exact Except.noConfusion h
          · rw [if_neg hkempty] at h
            by_cases hvempty : value = []
            · simp only [if_pos hvempty] at h
              exact Except.noConfusion h
            · rw [if_neg hvempty] at h
              cases hlk : lookupA st.parsedData st.currentSection with
              | none => rw [hlk] at h; exact Except.noConfusion h
              | some props =>
                  rw [hlk] at h
                  cases h
                  by_cases hcs : st.currentSection = s
                  · subst hcs
                    rw [hs] at hlk
                    cases hlk
                    refine ⟨setA P key value, if k = key then value else v,
                      lookupA_setA_eq _ _ _, ?_⟩
                    by_cases hkk : key = k
                    · subst hkk
                      rw [lookupA_setA_eq, if_pos rfl]
                    · rw [lookupA_setA_ne _ _ _ _ hkk, hk,
                        if_neg (fun hh => hkk hh.symm)]
                  · refine ⟨P, v, ?_, hk⟩
                    simpa [lookupA_setA_ne _ _ _ _ hcs] using hs
      · rw [if_neg (by simp [hcontains])] at h
        cases h
        exact ⟨P, v, hs, hk⟩

theorem parseLinesFrom_preserves_entry (lines : List GoStr) :
    ∀ (st stF : PState), parseLinesFrom lines st = .ok stF →
    ∀ (s k : GoStr) (P : Props) (v : GoStr),
      lookupA st.parsedData s = some P → lookupA P k = some v →
      ∃ P' v', lookupA stF.parsedData s = some P' ∧ lookupA P' k = some v' := by
  induction lines with
  | nil =>
      intro st stF h s k P v hs hk
      simp only [parseLinesFrom] at h
      cases h
      exact ⟨P, v, hs, hk⟩
  | cons l rest ih =>
      intro st stF h s k P v hs hk
      simp only [parseLinesFrom] at h
      cases hstep : parseLine st l with
      | error e => rw [hstep] at h; exact Except.noConfusion h
      | ok st' =>
          rw [hstep] at h
          obtain ⟨P', v', hs', hk'⟩ :=
            parseLine_preserves_entry st l st' hstep s k P v hs hk
          exact ih st' stF h s k P' v' hs' hk'

/-- Processing one newline-free line preserves document
well-formedness. -/
theorem parseLine_wf (st : PState) (l : GoStr) (st' : PState)
    (h : parseLine st l = .ok st')
    (hl : containsChar '\n' l = false)
    (hwf : wfDoc st.parsedData) : wfDoc st'.parsedData := by
  unfold parseLine at h
  by_cases hblank : trimSpace l = []
  · simp only [hblank, if_pos rfl] at h
    cases h
    exact hwf
  · rw [if_neg hblank] at h
    by_cases hheader : (startsWithChar '[' (trimSpace l) &&
        endsWithChar ']' (trimSpace l)) = true
    · rw [if_pos hheader] at h
      by_cases hinterior : trimSpace (((trimSpace l).drop 1).dropLast) = []
      · rw [if_pos hinterior] at h
        exact Except.noConfusion h
      · rw [if_neg hinterior] at h
        cases hlk : lookupA st.parsedData
            (trimSpace (((trimSpace l).drop 1).dropLast)) with
        | some q =>
            rw [hlk] at h
            cases h
            exact hwf
        | none =>
            rw [hlk] at h
            cases h
            show wfDoc (setA st.parsedData
              (trimSpace (((trimSpace l).drop 1).dropLast)) [])
            rw [setA_of_lookup_none _ _ _ hlk]
            have hnmem := not_mem_of_lookup_none _ _ hlk
            constructor
            · rw [List.map_append]
              rw [List.nodup_append]
              refine ⟨hwf.1, List.nodup_singleton _, ?_⟩
              intro a ha
              simp only [List.map_cons, List.map_nil, List.mem_singleton]
              intro he
              exact hnmem (he ▸ ha)
            · intro sp hsp
              rcases List.mem_append.mp hsp with hsp | hsp
              · exact hwf.2 sp hsp
              · rw [List.mem_singleton] at hsp
                subst hsp
                refine ⟨trimSpace_idem _, hinterior, ?_, List.nodup_nil, ?_⟩
                · apply containsChar_trimSpace_false
                  apply containsChar_false_mono
                    (fun a ha => mem_of_mem_trimSpace
                      ((List.drop_sublist 1 (trimSpace l)).mem
                        ((List.dropLast_sublist _).mem ha)))
                  exact hl
                · intro kv hkv
                  simp at hkv
    · rw [if_neg (by simp [hheader])] at h
      by_cases hcontains : containsChar '=' (trimSpace l) = true
      · rw [if_pos hcontains] at h
        by_cases hcomment : (startsWithChar '#' (trimSpace l) ||
            startsWithChar ';' (trimSpace l)) = true
        · simp only [if_pos hcomment] at h
          exact Except.noConfusion h
        · rw [if_neg hcomment] at h
          by_cases hkempty :
              trimSpace ((splitOnChar '=' (trimSpace l)).getD 0 []) = []
          · rw [if_pos hkempty] at h
            exact Except.noConfusion h
          · rw [if_neg hkempty] at h
            by_cases hvempty :
                trimSpace ((splitOnChar '=' (trimSpace l)).getD 1 []) = []
            · rw [if_pos hvempty] at h
              exact Except.noConfusion h
            · rw [if_neg hvempty] at h
              cases hlk : lookupA st.parsedData st.currentSection with
              | none => rw [hlk] at h; exact Except.noConfusion h
              | some props =>
                  rw [hlk] at h
                  cases h
                  have hkvwf := parsed_kv_wf l hl hcomment hcontains hkempty hvempty
                  have hsecwf : wfSection (st.currentSection, props) :=
                    hwf.2 _ (mem_of_lookup_some _ _ _ hlk)
                  constructor
                  · show ((setA st.parsedData st.currentSection _).map
                      Prod.fst).Nodup
                    rw [setA_map_fst_of_some _ _ _ _ hlk]
                    exact hwf.1
                  · intro sp hsp
                    rcases mem_setA _ _ _ sp hsp with hsp | hsp
                    · exact hwf.2 sp hsp
                    · subst hsp
                      refine ⟨hsecwf.1, hsecwf.2.1, hsecwf.2.2.1, ?_, ?_⟩
                      · show ((setA props _ _).map Prod.fst).Nodup
                        cases hpk : lookupA props
                            (trimSpace ((splitOnChar '=' (trimSpace l)).getD 0 [])) with
                        | some w =>
                            rw [setA_map_fst_of_some _ _ _ _ hpk]
                            exact hsecwf.2.2.2.1
                        | none =>
                            rw [setA_of_lookup_none _ _ _ hpk]
                            rw [List.map_append, List.nodup_append]
                            refine ⟨hsecwf.2.2.2.1, List.nodup_singleton _, ?_⟩
                            intro a ha
                            simp only [List.map_cons, List.map_nil,
                              List.mem_singleton]
                            intro he
                            exact not_mem_of_lookup_none _ _ hpk (he ▸ ha)
                      · intro kv hkv
                        rcases mem_setA _ _ _ kv hkv with hkv | hkv
                        · exact hsecwf.2.2.2.2 kv hkv
                        · subst hkv
                          exact hkvwf
      · rw [if_neg (by simp [hcontains])] at h
        cases h
        exact hwf

/-- Well-formedness is preserved along the whole pass. -/
theorem parseLinesFrom_wf (lines : List GoStr) :
    ∀ (st stF : PState), (∀ l ∈ lines, containsChar '\n' l = false) →
      wfDoc st.parsedData → parseLinesFrom lines st = .ok stF →
      wfDoc stF.parsedData := by
  induction lines with
  | nil =>
      intro st stF _ hwf h
      cases h
      exact hwf
  | cons l rest ih =>
      intro st stF hnl hwf h
      simp only [parseLinesFrom] at h
      cases hstep : parseLine st l with
      | error e => rw [hstep] at h; exact Except.noConfusion h
      | ok st' =>
          rw [hstep] at h
          exact ih st' stF (fun l' hl' => hnl l' (List.mem_cons_of_mem l hl'))
            (parseLine_wf st l st' hstep (hnl l (List.mem_cons_self l rest)) hwf) h

/-- Every document returned by a successful parse is well-formed. -/
theorem parseGo_wf (data : GoStr) (d : Doc) (h : parseGo data = .ok d) :
    wfDoc d := by
  unfold parseGo at h
  by_cases hd : data = []
  · rw [if_pos hd] at h
    exact Except.noConfusion h
  · rw [if_neg hd] at h
    unfold parseLines at h
    cases hrun : parseLinesFrom (splitOnChar '\n' data) ⟨[], []⟩ with
    | error e => rw [hrun] at h; exact Except.noConfusion h
    | ok stF =>
        rw [hrun] at h
        cases h
        exact parseLinesFrom_wf _ _ _
          (fun l hl => splitOnChar_parts_no_sep '\n' data l hl)
          ⟨by simp, by intro sp hsp; simp at hsp⟩ hrun

/-! ### Shape of the serialized text, line by line -/

/-- The header line `[name]` emitted by `String` (without the newline). -/
def headerLineOf (s : GoStr) : GoStr := '[' :: (s ++ [']'])

/-- The `key=value` line emitted by `String` (without the newline). -/
def kvLineOf (k v : GoStr) : GoStr := k ++ '=' :: v

/-- The sequence of lines the `String` method emits for a document. -/
def linesOf (d : Doc) : List GoStr :=
  d.flatMap (fun sp =>
    headerLineOf sp.1 :: sp.2.map (fun kv => kvLineOf kv.1 kv.2))

/-- Lines joined by single newlines (no trailing newline). -/
def joinLinesNL : List GoStr → GoStr
  | [] => []
  | [l] => l
  | l :: rest => l ++ '\n' :: joinLinesNL rest

theorem head?_append_left (k r : GoStr) (hk : k ≠ []) :
    (k ++ r).head? = k.head? := by
  cases k with
  | nil => exact absurd rfl hk
  | cons x xs => rfl

theorem startsWithChar_append (c : Char) (k r : GoStr) (hk : k ≠ []) :
    startsWithChar c (k ++ r) = startsWithChar c k := by
  cases k with
  | nil => exact absurd rfl hk
  | cons x xs => rfl

theorem endsWithChar_append (c : Char) (x v : GoStr) (hv : v ≠ []) :
    endsWithChar c (x ++ v) = endsWithChar c v := by
  unfold endsWithChar
  rw [List.reverse_append]
  exact startsWithChar_append c v.reverse x.reverse (by simpa using hv)

theorem trim_kvLine (k v : GoStr) (hk1 : trimSpace k = k) (hk2 : k ≠ [])
    (hv1 : trimSpace v = v) (hv2 : v ≠ []) :
    trimSpace (kvLineOf k v) = kvLineOf k v := by
  unfold kvLineOf
  apply trimSpace_eq_self_of_ends
  · intro c hc
    rw [head?_append_left k ('=' :: v) hk2] at hc
    exact head_not_space_of_trim k hk1 c hc
  · intro c hc
    rw [show k ++ '=' :: v = (k ++ ['=']) ++ v by simp] at hc
    rw [List.getLast?_append_of_ne_nil _ hv2] at hc
    exact last_not_space_of_trim v hv1 c hc

/-- A header line for a section not yet present creates that section at
the end of the document. -/
theorem parseLine_header_new (st : PState) (s : GoStr)
    (hs : trimSpace s = s) (hne : s ≠ [])
    (hnone : lookupA st.parsedData s = none) :
    parseLine st (headerLineOf s) = .ok ⟨setA st.parsedData s [], s⟩ := by
  unfold parseLine headerLineOf
  have htrim : trimSpace ('[' :: (s ++ [']'])) = '[' :: (s ++ [']']) :=
    trimSpace_sandwich '[' ']' s (by decide) (by decide)
  rw [htrim]
  have hnnil : ('[' :: (s ++ [']']) : GoStr) ≠ [] := by simp
  rw [if_neg hnnil]
  have hpre : startsWithChar '[' ('[' :: (s ++ [']'])) = true := by
    simp [startsWithChar]
  have hsuf : endsWithChar ']' ('[' :: (s ++ [']'])) = true := by
    simp [endsWithChar, startsWithChar, List.reverse_cons]
  rw [if_pos (by rw [hpre, hsuf]; rfl)]
  have hinterior : (((('[' :: (s ++ [']'])) : GoStr).drop 1).dropLast) = s := by
    simp
  rw [hinterior, hs, if_neg hne, hnone]

/-- A key-value line behaves as: split on every `=`, trim the first two
segments into key and value, store into the current section. -/
theorem parseLine_kv_general (st : PState) (props : Props)
    (l key0 value0 : GoStr) (restParts : List GoStr)
    (hsec : lookupA st.parsedData st.currentSection = some props)
    (htrim : trimSpace l = l)
    (hheader : ¬(startsWithChar '[' l = true ∧ endsWithChar ']' l = true))
    (hsplit : splitOnChar '=' l = key0 :: value0 :: restParts)
    (hcontains : containsChar '=' l = true)
    (h1 : startsWithChar '#' l = false) (h2 : startsWithChar ';' l = false)
    (hk : trimSpace key0 ≠ []) (hv : trimSpace value0 ≠ []) :
    parseLine st l =
      .ok ⟨setA st.parsedData st.currentSection
            (setA props (trimSpace key0) (trimSpace value0)),
           st.currentSection⟩ := by
  have hnnil : l ≠ [] := by
    intro hl
    rw [hl] at hcontains
    simp [containsChar] at hcontains
  unfold parseLine
  rw [htrim, if_neg hnnil,
      if_neg (by simp [and_eq_false_of_not_and hheader]),
      if_pos hcontains, if_neg (by simp [h1, h2]), hsplit]
  simp only [List.getD_cons_succ, List.getD_cons_zero]
  rw [if_neg hk, if_neg hv, hsec]

/-- Replaying the serialized key-value lines of one section appends its
pairs, in order, to the section just opened at the document's end. -/
theorem rebuild_kvs (A : Doc) (s : GoStr) (hA : s ∉ A.map Prod.fst) :
    ∀ (kvs P : Props),
      (∀ kv ∈ kvs, wfKV kv) →
      (kvs.map Prod.fst).Nodup →
      (∀ kv ∈ kvs, kv.1 ∉ P.map Prod.fst) →
      (∀ kv ∈ kvs, ¬(startsWithChar '[' kv.1 = true ∧
        endsWithChar ']' kv.2 = true)) →
      parseLinesFrom (kvs.map (fun kv => kvLineOf kv.1 kv.2))
          ⟨A ++ [(s, P)], s⟩ =
        .ok ⟨A ++ [(s, P ++ kvs)], s⟩ := by
  intro kvs
  induction kvs with
  | nil =>
      intro P _ _ _ _
      simp [parseLinesFrom]
  | cons kv rest ih =>
      intro P hwf hnodup hdisj hbr
      obtain ⟨k, v⟩ := kv
      obtain ⟨hk1, hk2, hk3, _hk4, hk5, hk6, hv1, hv2, hv3, _hv4⟩ :=
        hwf (k, v) (List.mem_cons_self _ _)
      have hheader : ¬(startsWithChar '[' (kvLineOf k v) = true ∧
          endsWithChar ']' (kvLineOf k v) = true) := by
        unfold kvLineOf
        rw [startsWithChar_append '[' k ('=' :: v) hk2]
        rw [show k ++ '=' :: v = (k ++ ['=']) ++ v by simp,
            endsWithChar_append ']' (k ++ ['=']) v hv2]
        exact hbr (k, v) (List.mem_cons_self _ _)
      have hsplit0 : splitOnChar '=' (kvLineOf k v) = k :: [v] := by
        unfold kvLineOf
        rw [splitOnChar_append_sep '=' k v hk3, splitOnChar_no_sep '=' v hv3]
      have hc1 : startsWithChar '#' (kvLineOf k v) = false := by
        unfold kvLineOf
        rw [startsWithChar_append '#' k ('=' :: v) hk2]
        exact hk5
      have hc2 : startsWithChar ';' (kvLineOf k v) = false := by
        unfold kvLineOf
        rw [startsWithChar_append ';' k ('=' :: v) hk2]
        exact hk6
      have hstep := parseLine_kv_general ⟨A ++ [(s, P)], s⟩ P (kvLineOf k v)
        k v [] (lookup_append_singleton A s P hA)
        (trim_kvLine k v hk1 hk2 hv1 hv2) hheader hsplit0
        (containsChar_append_sep '=' k v) hc1 hc2
        (by rw [hk1]; exact hk2) (by rw [hv1]; exact hv2)
      rw [hk1, hv1] at hstep
      have hPk : lookupA P k = none :=
        lookup_none_of_not_mem P k (hdisj (k, v) (List.mem_cons_self _ _))
      rw [setA_of_lookup_none P k v hPk,
          setA_append_singleton A s P (P ++ [(k, v)]) hA] at hstep
      have hnn : k ∉ rest.map Prod.fst ∧ (rest.map Prod.fst).Nodup :=
        List.nodup_cons.mp (by simpa using hnodup)
      have ihh := ih (P ++ [(k, v)])
        (fun kv' h' => hwf kv' (List.mem_cons_of_mem _ h'))
        hnn.2
        (by
          intro kv' h'
          rw [List.map_append]
          intro hmem
          rcases List.mem_append.mp hmem with hmem | hmem
          · exact hdisj kv' (List.mem_cons_of_mem _ h') hmem
          · simp only [List.map_cons, List.map_nil,
              List.mem_singleton] at hmem
            exact hnn.1 (hmem ▸ List.mem_map_of_mem Prod.fst h'))
        (fun kv' h' => hbr kv' (List.mem_cons_of_mem _ h'))
      simp only [List.map_cons, parseLinesFrom, hstep]
      rw [ihh, List.append_assoc]
      rfl

/-- Replaying all serialized lines of a well-formed document rebuilds it
verbatim at the end of the current document. -/
theorem rebuild_doc : ∀ (d A : Doc) (cs : GoStr),
    wfDoc d →
    (∀ s ∈ d.map Prod.fst, s ∉ A.map Prod.fst) →
    (∀ sp ∈ d, ∀ kv ∈ sp.2, ¬(startsWithChar '[' kv.1 = true ∧
      endsWithChar ']' kv.2 = true)) →
    ∃ cs', parseLinesFrom (linesOf d) ⟨A, cs⟩ = .ok ⟨A ++ d, cs'⟩ := by
  intro d
  induction d with
  | nil =>
      intro A cs _ _ _
      exact ⟨cs, by simp [linesOf, parseLinesFrom]⟩
  | cons sp rest ih =>
      intro A cs hwf hdisj hbr
      obtain ⟨s, props⟩ := sp
      have hsecwf : wfSection (s, props) := hwf.2 _ (List.mem_cons_self _ _)
      have hsA : s ∉ A.map Prod.fst := hdisj s (by simp)
      have hnn : (s :: rest.map Prod.fst).Nodup := by simpa using hwf.1
      have hsrest : s ∉ rest.map Prod.fst := (List.nodup_cons.mp hnn).1
      have hhd := parseLine_header_new ⟨A, cs⟩ s hsecwf.1 hsecwf.2.1
        (lookup_none_of_not_mem A s hsA)
      rw [setA_of_lookup_none A s [] (lookup_none_of_not_mem A s hsA)] at hhd
      have hkvs := rebuild_kvs A s hsA props []
        hsecwf.2.2.2.2 hsecwf.2.2.2.1 (by intro kv _; simp)
        (hbr (s, props) (List.mem_cons_self _ _))
      rw [List.nil_append] at hkvs
      obtain ⟨cs', hrun⟩ := ih (A ++ [(s, props)]) s
        ⟨(List.nodup_cons.mp hnn).2, fun sp' h' => hwf.2 sp' (List.mem_cons_of_mem _ h')⟩
        (by
          intro s' h' hmem
          rw [List.map_append] at hmem
          rcases List.mem_append.mp hmem with hmem | hmem
          · exact hdisj s' (by simp [h']) hmem
          · simp only [List.map_cons, List.map_nil,
              List.mem_singleton] at hmem
            exact hsrest (hmem ▸ h'))
        (fun sp' h' => hbr sp' (List.mem_cons_of_mem _ h'))
      refine ⟨cs', ?_⟩
      rw [show linesOf ((s, props) :: rest) =
          headerLineOf s ::
            ((props.map (fun kv => kvLineOf kv.1 kv.2)) ++ linesOf rest) by
        simp [linesOf]]
      simp only [parseLinesFrom, hhd]
      rw [parseLinesFrom_append, hkvs]
      show parseLinesFrom (linesOf rest) ⟨A ++ [(s, props)], s⟩ = _
      rw [hrun, List.append_assoc]
      rfl

theorem containsChar_cons (c x : Char) (xs : GoStr) :
    containsChar c (x :: xs) = (decide (x = c) || containsChar c xs) := by
  simp [containsChar]

theorem sectionChunk_eq (s : GoStr) (props : Props) :
    sectionChunk s props =
      ((headerLineOf s :: props.map (fun kv => kvLineOf kv.1 kv.2)).map
        (· ++ ['\n'])).flatten := by
  unfold sectionChunk headerLineOf
  simp only [List.map_cons, List.flatten_cons, List.map_map]
  rw [show ((fun l => l ++ ['\n']) ∘ fun kv => kvLineOf kv.1 kv.2) =
      (fun kv : GoStr × GoStr => kvChunk kv.1 kv.2) by
    funext kv
    simp [kvLineOf, kvChunk]]
  simp [List.append_assoc]

theorem flatten_map_chunks (d : Doc) :
    (d.map (fun sp => sectionChunk sp.1 sp.2)).flatten =
      ((linesOf d).map (· ++ ['\n'])).flatten := by
  induction d with
  | nil => rfl
  | cons sp rest ih =>
      obtain ⟨s, props⟩ := sp
      rw [show linesOf ((s, props) :: rest) =
          (headerLineOf s :: props.map (fun kv => kvLineOf kv.1 kv.2)) ++
            linesOf rest by simp [linesOf]]
      rw [List.map_cons, List.flatten_cons, List.map_append,
        List.flatten_append, ih, sectionChunk_eq]

theorem flatten_newline_join (ls : List GoStr) (h : ls ≠ []) :
    (ls.map (· ++ ['\n'])).flatten = joinLinesNL ls ++ ['\n'] := by
  induction ls with
  | nil => exact absurd rfl h
  | cons l rest ih =>
      cases rest with
      | nil => simp [joinLinesNL]
      | cons l2 rest2 =>
          rw [List.map_cons, List.flatten_cons, ih (by simp)]
          show _ = (l ++ '\n' :: joinLinesNL (l2 :: rest2)) ++ ['\n']
          simp [List.append_assoc]

theorem trimSuffixNewline_concat (x : GoStr) :
    trimSuffixNewline (x ++ ['\n']) = x := by
  unfold trimSuffixNewline
  rw [List.getLast?_concat, if_pos rfl, List.dropLast_concat]

theorem linesOf_ne_nil (d : Doc) (h : d ≠ []) : linesOf d ≠ [] := by
  cases d with
  | nil => exact absurd rfl h
  | cons sp rest => simp [linesOf]

/-- For a non-empty document, the `String` method emits exactly its
lines joined by newlines, with no trailing newline. -/
theorem toStringGo_eq_joinLines (d : Doc) (h : d ≠ []) :
    toStringGo d = joinLinesNL (linesOf d) := by
  unfold toStringGo
  rw [flatten_map_chunks, flatten_newline_join _ (linesOf_ne_nil d h),
      trimSuffixNewline_concat]

theorem splitOnChar_joinLines (ls : List GoStr) (h : ls ≠ [])
    (hnl : ∀ l ∈ ls, containsChar '\n' l = false) :
    splitOnChar '\n' (joinLinesNL ls) = ls := by
  induction ls with
  | nil => exact absurd rfl h
  | cons l rest ih =>
      cases rest with
      | nil =>
          show splitOnChar '\n' l = [l]
          exact splitOnChar_no_sep '\n' l (hnl l (by simp))
      | cons l2 rest2 =>
          show splitOnChar '\n' (l ++ '\n' :: joinLinesNL (l2 :: rest2)) = _
          rw [splitOnChar_append_sep '\n' l _ (hnl l (by simp))]
          rw [ih (by simp) (fun l' h' => hnl l' (List.mem_cons_of_mem _ h'))]

theorem linesOf_no_newline (d : Doc) (hwf : wfDoc d) :
    ∀ l ∈ linesOf d, containsChar '\n' l = false := by
  intro l hl
  unfold linesOf at hl
  rw [List.mem_flatMap] at hl
  obtain ⟨sp, hsp, hl⟩ := hl
  have hsec := hwf.2 sp hsp
  rcases List.mem_cons.mp hl with hl | hl
  · subst hl
    unfold headerLineOf
    have h3 : ('\n' : Char) ∉ sp.1 :=
      (containsChar_eq_false_iff _ _).mp hsec.2.2.1
    rw [containsChar_cons, containsChar_append, containsChar_cons]
    simp [containsChar]
    intro x hx he
    exact h3 (he ▸ hx)
  · rw [List.mem_map] at hl
    obtain ⟨kv, hkv, hl⟩ := hl
    subst hl
    obtain ⟨_, _, _, hk4, _, _, _, _, _, hv4⟩ := hsec.2.2.2.2 kv hkv
    unfold kvLineOf
    rw [containsChar_append, containsChar_cons]
    simp [hk4, hv4]

/-! ### Claim theorems (error handling and line classification) -/

/-- Claim C10: on the zero-value / never-loaded parser (nil `parsedData`
map, modelled as the empty association list), `Get` is total: for every
section name and key it returns the empty string together with the
`ErrSectionNotFound` error kind, with no panic and no state change
(`Get` only reads the receiver). -/
theorem claim_C10_get_total_on_empty (sectionName key : GoStr) :
    get ⟨[]⟩ sectionName key = ([], some GetErr.sectionNotFound) := rfl

/-- Claim C2 (code bug): the input `"k=v\n[s]"` has a key-value line
before the first section header.  The code does not return a
`KeyOutsideSection` error (no such sentinel exists); instead the store
`parsedData[currentSection][key] = value` hits the nil inner map at
`currentSection == ""` and panics at runtime. -/
theorem claim_C2_key_before_header_panics :
    parseGo ['k', '=', 'v', '\n', '[', 's', ']'] = .error PFail.nilMapPanic := rfl

/-- Claim C5 counterexample: `"[s]\nfoo\nk=v"` contains the non-blank,
non-comment, non-header, `=`-free line `foo` inside the active section
`s`, yet parsing succeeds (the line is silently skipped) instead of
failing with a `MalformedLine` error — no such error exists in the
code. -/
theorem claim_C5_counterexample :
    parseGo ['[', 's', ']', '\n', 'f', 'o', 'o', '\n', 'k', '=', 'v'] =
      .ok [(['s'], [(['k'], ['v'])])] := rfl

/-- Claim C5 (amended): a non-blank, non-comment, non-header line that
contains no `=` is silently skipped by `parseLines` — it produces no
error and leaves the parser state unchanged, in any section context. -/
theorem claim_C5_amended_eq_free_line_skipped (st : PState) (raw : GoStr)
    (hne : trimSpace raw ≠ [])
    (hnh : ¬(startsWithChar '[' (trimSpace raw) = true ∧
             endsWithChar ']' (trimSpace raw) = true))
    (hnc : containsChar '=' (trimSpace raw) = false)
    (_h1 : startsWithChar '#' (trimSpace raw) = false)
    (_h2 : startsWithChar ';' (trimSpace raw) = false) :
    parseLine st raw = .ok st := by
  unfold parseLine
  have hb := and_eq_false_of_not_and hnh
  simp [hne, hb, hnc]

/-- Claim C5 amended, witness: the skipped line `foo` inside section
`s`. -/
theorem claim_C5_amended_witness :
    parseLine ⟨[(['s'], [])], ['s']⟩ ['f', 'o', 'o'] = .ok ⟨[(['s'], [])], ['s']⟩ :=
  claim_C5_amended_eq_free_line_skipped ⟨[(['s'], [])], ['s']⟩ ['f', 'o', 'o']
    (by decide) (by decide) (by decide) (by decide) (by decide)

/-- Claim C3 counterexample: (a) in `"[db]\n#server\nk=v"` the comment
line `#server` is the very first non-blank line after the `[db]` header,
yet parsing succeeds (no `CommentAfterSectionHeader` error); (b) in
`"[a]\nk=v\n;x=y\n[b]\nm=n"` the comment line `;x=y` sits between the
two sections, yet parsing fails with `ErrCommentOnNewLine`.  Both halves
contradict the claim. -/
theorem claim_C3_counterexample :
    parseGo ['[', 'd', 'b', ']', '\n', '#', 's', 'e', 'r', 'v', 'e', 'r',
             '\n', 'k', '=', 'v'] = .ok [(['d', 'b'], [(['k'], ['v'])])] ∧
    parseGo ['[', 'a', ']', '\n', 'k', '=', 'v', '\n', ';', 'x', '=', 'y',
             '\n', '[', 'b', ']', '\n', 'm', '=', 'n'] =
      .error (.goError PErr.commentOnNewLine) := ⟨rfl, rfl⟩

/-- Claim C3 (amended): a line whose trimmed form starts with `#` or `;`
fails with `ErrCommentOnNewLine` exactly when it contains a `=`,
regardless of its position relative to section headers; a comment line
without `=` is always silently ignored. -/
theorem claim_C3_amended_comment_eq_decides (st : PState) (raw : GoStr)
    (hc : startsWithChar '#' (trimSpace raw) = true ∨
          startsWithChar ';' (trimSpace raw) = true) :
    (containsChar '=' (trimSpace raw) = true →
        parseLine st raw = .error (.goError PErr.commentOnNewLine)) ∧
    (containsChar '=' (trimSpace raw) = false → parseLine st raw = .ok st) := by
  have hne : trimSpace raw ≠ [] := by
    rcases hc with h | h <;> · cases htr : trimSpace raw <;> simp [htr, startsWithChar] at h ⊢
  have hnb : startsWithChar '[' (trimSpace raw) = false := by
    cases htr : trimSpace raw with
    | nil => simp [startsWithChar]
    | cons c rest =>
        rcases hc with h | h <;>
          · rw [htr] at h
            simp only [startsWithChar, decide_eq_true_eq] at h
            subst h
            simp [startsWithChar]
  have hb : (startsWithChar '[' (trimSpace raw) &&
             endsWithChar ']' (trimSpace raw)) = false := by simp [hnb]
  constructor
  · intro hcontains
    unfold parseLine
    have hcm : (startsWithChar '#' (trimSpace raw) ||
                startsWithChar ';' (trimSpace raw)) = true := by
      rcases hc with h | h <;> simp [h]
    simp [hne, hb, hcontains, hcm]
  · intro hcontains
    unfold parseLine
    simp [hne, hb, hcontains]

/-- Claim C3 amended, witness: with section `db` open, the comment line
`#a=b` fails with `ErrCommentOnNewLine` and the comment line `#ab` is
skipped. -/
theorem claim_C3_amended_witness :
    parseLine ⟨[(['d', 'b'], [])], ['d', 'b']⟩ ['#', 'a', '=', 'b'] =
      .error (.goError PErr.commentOnNewLine) ∧
    parseLine ⟨[(['d', 'b'], [])], ['d', 'b']⟩ ['#', 'a', 'b'] =
      .ok ⟨[(['d', 'b'], [])], ['d', 'b']⟩ :=
  ⟨(claim_C3_amended_comment_eq_decides ⟨[(['d', 'b'], [])], ['d', 'b']⟩
      ['#', 'a', '=', 'b'] (Or.inl (by decide))).1 (by decide),
   (claim_C3_amended_comment_eq_decides ⟨[(['d', 'b'], [])], ['d', 'b']⟩
      ['#', 'a', 'b'] (Or.inl (by decide))).2 (by decide)⟩

/-- Claim C4 counterexample: in `"[s]\nk=a=b"` the stored value for key
`k` is `"a"` (the segment between the first and second `=`), not
`"a=b"` (everything after the first `=`) as the claim states. -/
theorem claim_C4_counterexample :
    parseGo ['[', 's', ']', '\n', 'k', '=', 'a', '=', 'b'] =
      .ok [(['s'], [(['k'], ['a'])])] ∧ (['a'] : GoStr) ≠ ['a', '=', 'b'] :=
  ⟨rfl, by decide⟩

/-- Claim C9 counterexample: on a parser holding zero sections,
`SaveToFile` does not fail with `ErrParsedDataEmpty` — its pure part
succeeds and the content written is the empty string. -/
theorem claim_C9_counterexample :
    saveToFile ⟨[]⟩ = .ok [] := rfl

/-- Claim C9 (amended): the final revision's `SaveToFile` performs no
emptiness check (`ErrParsedDataEmpty` is declared but never returned):
for every parser whose `parsedData` has zero sections, the save succeeds
(absent external I/O failure) and writes the empty serialization. -/
theorem claim_C9_amended_save_empty_succeeds (p : Parser)
    (h : p.parsedData = []) : saveToFile p = .ok [] := by
  cases p with
  | mk d => cases h; rfl

/-- Claim C9 amended, witness: the zero-section parser. -/
theorem claim_C9_amended_witness : saveToFile ⟨[]⟩ = .ok [] :=
  claim_C9_amended_save_empty_succeeds ⟨[]⟩ rfl

/-- Claim C6: loading is all-or-nothing: whenever `LoadFromString`
returns an error, the parser's previously held `parsedData` is left
exactly as it was; the stored document is replaced only when the whole
parse succeeds. -/
theorem claim_C6_load_all_or_nothing (p : Parser) (data : GoStr) (e : PFail)
    (h : (loadFromString p data).2 = some e) : (loadFromString p data).1 = p := by
  unfold loadFromString at h ⊢
  cases hp : parseGo data with
  | error e' => simp [hp]
  | ok d => simp [hp] at h

/-- Claim C6, witness: a parser holding section `a` keeps it untouched
when loading the empty string fails with `ErrEmptyString`. -/
theorem claim_C6_witness :
    (loadFromString ⟨[(['a'], [(['k'], ['v'])])]⟩ []).2 =
      some (.goError PErr.emptyString) ∧
    (loadFromString ⟨[(['a'], [(['k'], ['v'])])]⟩ []).1 =
      ⟨[(['a'], [(['k'], ['v'])])]⟩ :=
  ⟨rfl, claim_C6_load_all_or_nothing ⟨[(['a'], [(['k'], ['v'])])]⟩ []
    (.goError PErr.emptyString) rfl⟩

/-- The line `[]` is rejected with `ErrSectionIsEmpty` in every parser
state: the header branch fires and the trimmed interior is empty. -/
theorem parseLine_empty_header (st : PState) :
    parseLine st ['[', ']'] = .error (.goError PErr.sectionIsEmpty) := rfl

/-- Claim C7: an input whose lines are any prefix that parses without
error, followed by the empty section header `[]` and then anything at
all, fails with `ErrSectionIsEmpty`, regardless of the surrounding
content. -/
theorem claim_C7_empty_section_name_rejected (pre post : List GoStr) (st : PState)
    (h : parseLinesFrom pre ⟨[], []⟩ = .ok st) :
    parseLines (pre ++ ['[', ']'] :: post) = .error (.goError PErr.sectionIsEmpty) := by
  unfold parseLines
  rw [parseLinesFrom_append, h]
  simp only [parseLinesFrom, parseLine_empty_header]
  rfl

/-- Claim C7, witness: `[]` after the valid section `[a]` and before a
valid key-value line. -/
theorem claim_C7_witness :
    parseLines [['[', 'a', ']'], ['[', ']'], ['k', '=', 'v']] =
      .error (.goError PErr.sectionIsEmpty) :=
  claim_C7_empty_section_name_rejected [['[', 'a', ']']] [['k', '=', 'v']]
    ⟨[(['a'], [])], ['a']⟩ rfl

/-- Claim C8: when a section name `s` already present in the document is
re-declared by a later header line `[s]`, parsing does not error on that
header: the existing section is reused (the document is unchanged and
`currentSection` becomes `s`); and whenever the rest of the parse
succeeds, every key stored under the earlier declaration is still
present in the final document. -/
theorem claim_C8_redeclared_section_merges (st : PState) (s : GoStr)
    (props : Props) (post : List GoStr)
    (hs : trimSpace s = s) (hne : s ≠ [])
    (hmem : lookupA st.parsedData s = some props) :
    parseLine st ('[' :: (s ++ [']'])) = .ok ⟨st.parsedData, s⟩ ∧
    ∀ stF, parseLinesFrom (('[' :: (s ++ [']'])) :: post) st = .ok stF →
      ∀ k v, lookupA props k = some v →
        ∃ props' v', lookupA stF.parsedData s = some props' ∧
          lookupA props' k = some v' := by
  have htrim : trimSpace ('[' :: (s ++ [']'])) = '[' :: (s ++ [']']) :=
    trimSpace_sandwich '[' ']' s (by decide) (by decide)
  have hstep : parseLine st ('[' :: (s ++ [']'])) = .ok ⟨st.parsedData, s⟩ := by
    unfold parseLine
    rw [htrim]
    have hnnil : ('[' :: (s ++ [']']) : GoStr) ≠ [] := by simp
    rw [if_neg hnnil]
    have hpre : startsWithChar '[' ('[' :: (s ++ [']'])) = true := by
      simp [startsWithChar]
    have hsuf : endsWithChar ']' ('[' :: (s ++ [']'])) = true := by
      simp [endsWithChar, startsWithChar, List.reverse_cons]
    rw [if_pos (by rw [hpre, hsuf]; rfl)]
    have hinterior : (((('[' :: (s ++ [']'])) : GoStr).drop 1).dropLast) = s := by
      simp
    rw [hinterior, hs, if_neg hne, hmem]
  refine ⟨hstep, ?_⟩
  intro stF hrun k v hk
  simp only [parseLinesFrom, hstep] at hrun
  exact parseLinesFrom_preserves_entry post ⟨st.parsedData, s⟩ stF hrun s k props v
    hmem hk

/-- Claim C4 (amended): a key-value line inside an active section is
split on every `=`: the key is the trimmed text before the first `=`,
and the value is the trimmed text between the first and the second `=`
only — anything after a second `=` is discarded (for a line with a
single `=` the value is the trimmed text after it); both key and value
are whitespace-trimmed before storing. -/
theorem claim_C4_amended_first_two_segments (st : PState) (props : Props)
    (hsec : lookupA st.parsedData st.currentSection = some props) :
    (∀ a b : GoStr,
      containsChar '=' a = false → containsChar '=' b = false →
      trimSpace (a ++ '=' :: b) = a ++ '=' :: b →
      ¬(startsWithChar '[' (a ++ '=' :: b) = true ∧
        endsWithChar ']' (a ++ '=' :: b) = true) →
      startsWithChar '#' (a ++ '=' :: b) = false →
      startsWithChar ';' (a ++ '=' :: b) = false →
      trimSpace a ≠ [] → trimSpace b ≠ [] →
      parseLine st (a ++ '=' :: b) =
        .ok ⟨setA st.parsedData st.currentSection
              (setA props (trimSpace a) (trimSpace b)), st.currentSection⟩) ∧
    (∀ a b c : GoStr,
      containsChar '=' a = false → containsChar '=' b = false →
      trimSpace (a ++ '=' :: (b ++ '=' :: c)) = a ++ '=' :: (b ++ '=' :: c) →
      ¬(startsWithChar '[' (a ++ '=' :: (b ++ '=' :: c)) = true ∧
        endsWithChar ']' (a ++ '=' :: (b ++ '=' :: c)) = true) →
      startsWithChar '#' (a ++ '=' :: (b ++ '=' :: c)) = false →
      startsWithChar ';' (a ++ '=' :: (b ++ '=' :: c)) = false →
      trimSpace a ≠ [] → trimSpace b ≠ [] →
      parseLine st (a ++ '=' :: (b ++ '=' :: c)) =
        .ok ⟨setA st.parsedData st.currentSection
              (setA props (trimSpace a) (trimSpace b)), st.currentSection⟩) := by
  constructor
  · intro a b ha hb htrim hheader h1 h2 hk hv
    exact parseLine_kv_general st props (a ++ '=' :: b) a b [] hsec htrim hheader
      (by rw [splitOnChar_append_sep '=' a b ha, splitOnChar_no_sep '=' b hb])
      (containsChar_append_sep '=' a b) h1 h2 hk hv
  · intro a b c ha hb htrim hheader h1 h2 hk hv
    exact parseLine_kv_general st props (a ++ '=' :: (b ++ '=' :: c)) a b
      (splitOnChar '=' c) hsec htrim hheader
      (by rw [splitOnChar_append_sep '=' a (b ++ '=' :: c) ha,
              splitOnChar_append_sep '=' b c hb])
      (containsChar_append_sep '=' a (b ++ '=' :: c)) h1 h2 hk hv

/-- Claim C4 amended, witness: with section `s` open, the line `k=a=b`
stores key `k` with value `a` (the text between the two `=`), discarding
`b`. -/
theorem claim_C4_amended_witness :
    parseLine ⟨[(['s'], [])], ['s']⟩ (['k'] ++ '=' :: (['a'] ++ '=' :: ['b'])) =
      .ok ⟨[(['s'], [(['k'], ['a'])])], ['s']⟩ :=
  (claim_C4_amended_first_two_segments ⟨[(['s'], [])], ['s']⟩ [] rfl).2
    ['k'] ['a'] ['b'] (by decide) (by decide) (by decide) (by decide)
    (by decide) (by decide) (by decide) (by decide)

/-- Claim C8, witness: section `a` holding `k=1` is re-declared after
section `b`; the later `m=3` merges in and `k` survives to the end. -/
theorem claim_C8_witness :
    parseLine ⟨[(['a'], [(['k'], ['1'])]), (['b'], [(['x'], ['2'])])], ['b']⟩
        ('[' :: (['a'] ++ [']'])) =
      .ok ⟨[(['a'], [(['k'], ['1'])]), (['b'], [(['x'], ['2'])])], ['a']⟩ ∧
    ∃ props' v',
      lookupA
        [(['a'], [(['k'], ['1']), (['m'], ['3'])]), (['b'], [(['x'], ['2'])])]
        ['a'] = some props' ∧ lookupA props' ['k'] = some v' := by
  have h := claim_C8_redeclared_section_merges
    ⟨[(['a'], [(['k'], ['1'])]), (['b'], [(['x'], ['2'])])], ['b']⟩
    ['a'] [(['k'], ['1'])] [['m', '=', '3']] (by decide) (by decide) (by decide)
  refine ⟨h.1, ?_⟩
  exact h.2 ⟨[(['a'], [(['k'], ['1']), (['m'], ['3'])]), (['b'], [(['x'], ['2'])])],
    ['a']⟩ rfl ['k'] ['1'] rfl

/-- Claim C1 counterexample: the input `" "` parses successfully to the
empty document, whose serialization is the empty string; re-parsing that
serialization does not succeed — it fails with `ErrEmptyString`.  So the
claimed round trip fails for a document obtained from a successful
parse. -/
theorem claim_C1_counterexample :
    parseGo [' '] = .ok [] ∧ toStringGo [] = [] ∧
    parseGo (toStringGo []) = .error (.goError PErr.emptyString) :=
  ⟨rfl, rfl, rfl⟩

/-- Claim C1 (amended): for every document obtained from a successful
parse that has at least one section, and in which no stored key starts
with `[` while its value ends with `]` (such a pair serializes to a line
that re-parses as a section header), re-parsing the serialized form
succeeds and returns the document verbatim — which in particular means
equality as key/value sets.  The excluded cases genuinely fail: the
empty document serializes to `""` (rejected as `ErrEmptyString`), and a
bracket-shaped key/value line is re-read as a header. -/
theorem claim_C1_amended_roundtrip (data : GoStr) (d : Doc)
    (hparse : parseGo data = .ok d) (hne : d ≠ [])
    (hbr : ∀ sp ∈ d, ∀ kv ∈ sp.2, ¬(startsWithChar '[' kv.1 = true ∧
      endsWithChar ']' kv.2 = true)) :
    parseGo (toStringGo d) = .ok d := by
  have hwf := parseGo_wf data d hparse
  have hjoin := toStringGo_eq_joinLines d hne
  have hnl := linesOf_no_newline d hwf
  have hlne := linesOf_ne_nil d hne
  have hsplit : splitOnChar '\n' (toStringGo d) = linesOf d := by
    rw [hjoin]
    exact splitOnChar_joinLines (linesOf d) hlne hnl
  have hnonempty : toStringGo d ≠ [] := by
    rw [hjoin]
    cases d with
    | nil => exact absurd rfl hne
    | cons sp r =>
        rw [show linesOf (sp :: r) = headerLineOf sp.1 ::
            ((sp.2.map (fun kv => kvLineOf kv.1 kv.2)) ++ linesOf r) by
          simp [linesOf]]
        cases (sp.2.map (fun kv => kvLineOf kv.1 kv.2)) ++ linesOf r with
        | nil => simp [joinLinesNL, headerLineOf]
        | cons x xs => simp [joinLinesNL, headerLineOf]
  unfold parseGo
  rw [if_neg hnonempty, hsplit]
  unfold parseLines
  obtain ⟨cs', hrun⟩ := rebuild_doc d [] [] hwf (by simp) hbr
  rw [List.nil_append] at hrun
  rw [hrun]
  rfl

/-- Claim C1 amended, witness: the parse of `"[s]\nk=v"` round-trips
through serialization to itself. -/
theorem claim_C1_amended_witness :
    parseGo ['[', 's', ']', '\n', 'k', '=', 'v'] =
      .ok [(['s'], [(['k'], ['v'])])] ∧
    parseGo (toStringGo [(['s'], [(['k'], ['v'])])]) =
      .ok [(['s'], [(['k'], ['v'])])] :=
  ⟨rfl, claim_C1_amended_roundtrip ['[', 's', ']', '\n', 'k', '=', 'v']
    [(['s'], [(['k'], ['v'])])] rfl (by decide) (by decide)⟩

end IniParser
